import Mathlib

/-!
# Function Type Registry — verification development

A shallow embedding of `golem-rib/src/type_registry.rs`: the data model
(`AnalysedType`, `AnalysedExport`, `RegistryKey`, `RegistryValue`,
`FunctionTypeRegistry`), the registry builder (`from_export_metadata` and the
recursive `internal::update_registry` walk), and the query API (`lookup`,
`get`, `get_variants`, `argument_types`), together with theorems about them.

The Rust `HashMap<RegistryKey, RegistryValue>` is modelled as an association
list with overwrite-on-insert (`insertEntry`), so that at most one entry per
key is kept and lookup is first-match.  The `HashSet<AnalysedType>`
accumulated during the flat pass of `from_export_metadata` is iterated by the
source in an order that is not a function of its element set, so the builder
is modelled in two layers: `fromExportMetadataWith` takes the expansion order
as an explicit parameter, and `fromExportMetadata` instantiates it with the
encounter sequence `typesSeq` (re-processing a duplicated type is harmless:
it re-inserts the very same entries).
-/

set_option maxHeartbeats 1000000

namespace TypeRegistry

/-- `golem_wasm_ast::analysis::AnalysedType`: the closed set of structural
type shapes.  A variant case is a `NameOptionTypePair` (case name, optional
payload type), modelled as `String × Option AnalysedType`; an enum case is a
bare name; record fields are `NameTypePair`s, modelled as
`String × AnalysedType`. -/
inductive AnalysedType where
  | variant (cases : List (String × Option AnalysedType))
  | enum (cases : List String)
  | tuple (items : List AnalysedType)
  | list (inner : AnalysedType)
  | record (fields : List (String × AnalysedType))
  | option (inner : AnalysedType)
  | result (ok : Option AnalysedType) (err : Option AnalysedType)
  | flags (names : List String)
  | str
  | chr
  | f64
  | f32
  | u64
  | s64
  | u32
  | s32
  | u16
  | s16
  | u8
  | s8
  | bool
  | handle

/-- `golem_wasm_ast::analysis::TypeVariant`: the full variant descriptor,
i.e. its list of cases. -/
abbrev TypeVariant := List (String × Option AnalysedType)

/-- `AnalysedFunctionParameter { name, typ }`. -/
structure AnalysedFunctionParameter where
  name : String
  typ : AnalysedType

/-- `AnalysedFunctionResult { name, typ }`. -/
structure AnalysedFunctionResult where
  name : Option String
  typ : AnalysedType

/-- `AnalysedFunction { name, parameters, results }`. -/
structure AnalysedFunction where
  name : String
  parameters : List AnalysedFunctionParameter
  results : List AnalysedFunctionResult

/-- `golem_wasm_ast::analysis::AnalysedExport`: either a named interface
instance (`AnalysedExport::Instance`, with a name and a list of functions) or
a top-level function (`AnalysedExport::Function`). -/
inductive AnalysedExport where
  | inst (name : String) (functions : List AnalysedFunction)
  | function (f : AnalysedFunction)

/-- `RegistryKey`: `FunctionName(String)` or
`FunctionNameWithInterface { interface_name, function_name }`.  Equality is
structural, and decidable because both fields are strings. -/
inductive RegistryKey where
  | functionName (name : String)
  | functionNameWithInterface (interfaceName : String) (functionName : String)
  deriving DecidableEq

/-- `RegistryValue`: `Value(AnalysedType)`,
`Variant { parameter_types, variant_type }` or
`Function { parameter_types, return_types }`. -/
inductive RegistryValue where
  | value (typ : AnalysedType)
  | variant (parameterTypes : List AnalysedType) (variantType : TypeVariant)
  | function (parameterTypes : List AnalysedType) (returnTypes : List AnalysedType)

/-- `RegistryValue::argument_types`. -/
def RegistryValue.argumentTypes : RegistryValue → List AnalysedType
  | .function parameterTypes _ => parameterTypes
  | .variant parameterTypes _ => parameterTypes
  | .value _ => []

/-- The registry's `HashMap<RegistryKey, RegistryValue>`, modelled as an
association list on which `insertEntry` keeps at most one entry per key. -/
abbrev RegMap := List (RegistryKey × RegistryValue)

/-- `HashMap::insert`: overwrite any existing entry for the key. -/
def insertEntry (m : RegMap) (k : RegistryKey) (v : RegistryValue) : RegMap :=
  (k, v) :: m.filter (fun e => ! decide (e.1 = k))

/-- `HashMap::get`: first-match lookup on the association list. -/
def lookupKey (m : RegMap) (k : RegistryKey) : Option RegistryValue :=
  (m.find? (fun e => decide (e.1 = k))).map (fun e => e.2)

/-- `FunctionTypeRegistry { types }`. -/
structure FunctionTypeRegistry where
  types : RegMap

/-- Modelled from the spec: the call-reference model (`CallType` from
`call_type.rs` and `ParsedFunctionName`/`ParsedFunctionSite` from the parser)
is not part of the sources under study.  Per the spec (§2, §6) a function
reference carries a function name together with an optional
interface-qualifying site context; `interfaceName` plays the role of
`site.interface_name()` and `functionName` of `function_name()`. -/
structure ParsedFunctionName where
  interfaceName : Option String
  functionName : String

/-- Modelled from the spec: a call reference is a plain (optionally
interface-qualified) function reference, a variant-constructor reference
(case name only), or an enum-constructor reference (case name only). -/
inductive CallType where
  | function (functionName : ParsedFunctionName)
  | variantConstructor (name : String)
  | enumConstructor (name : String)

/-- `RegistryKey::from_function_name`, with the site already reduced to its
`interface_name()`. -/
def RegistryKey.fromFunctionName (site : Option String) (functionName : String) :
    RegistryKey :=
  match site with
  | none => .functionName functionName
  | some name => .functionNameWithInterface name functionName

/-- `RegistryKey::from_call_type`. -/
def RegistryKey.fromCallType : CallType → RegistryKey
  | .variantConstructor variantName => .functionName variantName
  | .enumConstructor enumName => .functionName enumName
  | .function parsedFnName =>
    match parsedFnName.interfaceName with
    | none => .functionName parsedFnName.functionName
    | some interfaceName =>
      .functionNameWithInterface interfaceName parsedFnName.functionName

/-- `FunctionTypeRegistry::get_variants`. -/
def FunctionTypeRegistry.getVariants (r : FunctionTypeRegistry) : List TypeVariant :=
  r.types.filterMap (fun e =>
    match e.2 with
    | .variant _ variantType => some variantType
    | _ => none)

/-- `FunctionTypeRegistry::get`. -/
def FunctionTypeRegistry.get (r : FunctionTypeRegistry) (key : CallType) :
    Option RegistryValue :=
  match key with
  | .function parsedFnName =>
    lookupKey r.types
      (RegistryKey.fromFunctionName parsedFnName.interfaceName parsedFnName.functionName)
  | .variantConstructor variantName => lookupKey r.types (.functionName variantName)
  | .enumConstructor enumName => lookupKey r.types (.functionName enumName)

/-- `FunctionTypeRegistry::empty`. -/
def FunctionTypeRegistry.empty : FunctionTypeRegistry := ⟨[]⟩

/-- `FunctionTypeRegistry::lookup`. -/
def FunctionTypeRegistry.lookup (r : FunctionTypeRegistry) (registryKey : RegistryKey) :
    Option RegistryValue :=
  lookupKey r.types registryKey

mutual

/-- `internal::update_registry`: the recursive expansion walk.  Variant: one
insertion per case, a `Variant` entry when the case carries a payload and a
`Value` entry holding the whole variant type otherwise, with no recursion into
payloads.  Enum: one `Value` insertion per case.  Tuple, list, record, option
and the present sides of a result recurse; every other shape does nothing. -/
def updateRegistry (ty : AnalysedType) (registry : RegMap) : RegMap :=
  match ty with
  | .variant cases =>
    cases.foldl
      (fun reg nameTypePair =>
        insertEntry reg (.functionName nameTypePair.1)
          (match nameTypePair.2 with
           | some variantParameterTyp => .variant [variantParameterTyp] cases
           | none => .value (.variant cases)))
      registry
  | .enum typeEnum =>
    typeEnum.foldl
      (fun reg nameTypePair =>
        insertEntry reg (.functionName nameTypePair) (.value (.enum typeEnum)))
      registry
  | .tuple items => updateAll items registry
  | .list inner => updateRegistry inner registry
  | .record fields => updateFields fields registry
  | .result (some okType) (some errType) =>
    updateRegistry errType (updateRegistry okType registry)
  | .result none (some errType) => updateRegistry errType registry
  | .result (some okType) none => updateRegistry okType registry
  | .option typeOption => updateRegistry typeOption registry
  | .result none none => registry
  | .flags _ => registry
  | .str => registry
  | .chr => registry
  | .f64 => registry
  | .f32 => registry
  | .u64 => registry
  | .s64 => registry
  | .u32 => registry
  | .s32 => registry
  | .u16 => registry
  | .s16 => registry
  | .u8 => registry
  | .s8 => registry
  | .bool => registry
  | .handle => registry

/-- The `for element in tuple.items { update_registry(...) }` loop, also used
to run `update_registry` over each accumulated top-level type in
`from_export_metadata`. -/
def updateAll (tys : List AnalysedType) (registry : RegMap) : RegMap :=
  match tys with
  | [] => registry
  | t :: rest => updateAll rest (updateRegistry t registry)

/-- The `for name_type in record.fields { update_registry(&name_type.typ) }`
loop. -/
def updateFields (fields : List (String × AnalysedType)) (registry : RegMap) : RegMap :=
  match fields with
  | [] => registry
  | (_, t) :: rest => updateFields rest (updateRegistry t registry)

end

/-- The `RegistryValue::Function` signature built by the flat pass of
`from_export_metadata` for one exported function: its parameter types in
order, its result types in order. -/
def functionSignature (f : AnalysedFunction) : RegistryValue :=
  .function (f.parameters.map AnalysedFunctionParameter.typ)
    (f.results.map AnalysedFunctionResult.typ)

/-- The key/value insertions the flat pass performs for one export, in
order: qualified keys for the functions of an instance, a plain key for a
top-level function. -/
def exportEntries : AnalysedExport → List (RegistryKey × RegistryValue)
  | .inst interfaceName functions =>
    functions.map (fun fn =>
      (.functionNameWithInterface interfaceName fn.name, functionSignature fn))
  | .function fn => [(.functionName fn.name, functionSignature fn)]

/-- All flat-pass insertions of `from_export_metadata`, in order. -/
def flatEntries (exports : List AnalysedExport) : List (RegistryKey × RegistryValue) :=
  exports.flatMap exportEntries

/-- `map.insert(key, value)` on an uncurried entry. -/
def insertPair (m : RegMap) (e : RegistryKey × RegistryValue) : RegMap :=
  insertEntry m e.1 e.2

/-- The flat pass of `from_export_metadata`: starting from the empty map,
insert every exported function's signature in declaration order. -/
def flatPass (exports : List AnalysedExport) : RegMap :=
  (flatEntries exports).foldl insertPair []

/-- The parameter types then result types of one function, the order in which
the flat pass feeds them to `types.insert`. -/
def typesOfFunction (f : AnalysedFunction) : List AnalysedType :=
  f.parameters.map AnalysedFunctionParameter.typ ++
    f.results.map AnalysedFunctionResult.typ

/-- The sequence in which `from_export_metadata` encounters parameter and
return types and feeds them to the `types : HashSet` accumulator. -/
def typesSeq (exports : List AnalysedExport) : List AnalysedType :=
  exports.flatMap (fun e =>
    match e with
    | .inst _ functions => functions.flatMap typesOfFunction
    | .function fn => typesOfFunction fn)

/-- `from_export_metadata` with the iteration order of the accumulated
`types : HashSet` made explicit: flat pass, then `update_registry` over the
given enumeration of the accumulated types. -/
def fromExportMetadataWith (exports : List AnalysedExport)
    (order : List AnalysedType) : FunctionTypeRegistry :=
  ⟨updateAll order (flatPass exports)⟩

/-- `FunctionTypeRegistry::from_export_metadata`, instantiated with the
encounter sequence as the expansion order. -/
def fromExportMetadata (exports : List AnalysedExport) : FunctionTypeRegistry :=
  fromExportMetadataWith exports (typesSeq exports)

/-- The spec's §8 example variant type:
`variant { circle(f64), square(f64), none }`. -/
def shapeVariant : TypeVariant :=
  [("circle", some .f64), ("square", some .f64), ("none", none)]

/-- The spec's §8 example interface function `add(a: s32, b: s32) -> s32`. -/
def addFunction : AnalysedFunction :=
  ⟨"add", [⟨"a", .s32⟩, ⟨"b", .s32⟩], [⟨none, .s32⟩]⟩

/-- The spec's §8 example top-level function `make_shape`, with
`shapeVariant` nested inside a record parameter. -/
def makeShapeFunction : AnalysedFunction :=
  ⟨"make_shape", [⟨"kind", .record [("shape", .variant shapeVariant)]⟩],
    [⟨none, .str⟩]⟩

/-- The spec's §8 example component: an interface `calculator` exporting
`add` and a top-level `make_shape`. -/
def exampleExports : List AnalysedExport :=
  [.inst "calculator" [addFunction], .function makeShapeFunction]

/-- An interface whose function `f` takes a variant with a case also named
`f`: the expansion pass then populates the plain key `f` even though no
unqualified function of that name exists. -/
def trickyExports : List AnalysedExport :=
  [.inst "api" [⟨"f", [⟨"x", .variant [("f", none)]⟩], []⟩]]

/-- A variant with a case `ok` carrying a `u32` payload. -/
def okVariantA : TypeVariant := [("ok", some .u32)]

/-- An unrelated variant with a case `ok` carrying a `str` payload. -/
def okVariantB : TypeVariant := [("ok", some .str)]

/-- The spec's §8 collision example: two unrelated exported types both
declare a case named `ok` with different payloads. -/
def collidingExports : List AnalysedExport :=
  [.function ⟨"f", [⟨"a", .variant okVariantA⟩], []⟩,
   .function ⟨"g", [⟨"b", .variant okVariantB⟩], []⟩]

/-- The claim-level reachability relation: `Reaches t u` holds when `u` sits
inside `t` reached by descending only through tuples, lists, records,
options, and the present sides of results (depth zero included; variant
payloads are not descended into). -/
inductive Reaches : AnalysedType → AnalysedType → Prop where
  | refl (t : AnalysedType) : Reaches t t
  | tuple {items : List AnalysedType} {t u : AnalysedType}
      (hmem : t ∈ items) (h : Reaches t u) : Reaches (.tuple items) u
  | list {inner u : AnalysedType} (h : Reaches inner u) : Reaches (.list inner) u
  | record {fields : List (String × AnalysedType)} {name : String} {t u : AnalysedType}
      (hmem : (name, t) ∈ fields) (h : Reaches t u) : Reaches (.record fields) u
  | option {inner u : AnalysedType} (h : Reaches inner u) : Reaches (.option inner) u
  | resultOk {okType u : AnalysedType} {err : Option AnalysedType}
      (h : Reaches okType u) : Reaches (.result (some okType) err) u
  | resultErr {errType u : AnalysedType} {ok : Option AnalysedType}
      (h : Reaches errType u) : Reaches (.result ok (some errType)) u

/-- The value a sequence of insertions leaves under a key: the last insertion
with that key wins. -/
def lastWins (entries : List (RegistryKey × RegistryValue)) (k : RegistryKey) :
    Option RegistryValue :=
  match entries with
  | [] => none
  | e :: rest =>
    match lastWins rest k with
    | some v => some v
    | none => if e.1 = k then some e.2 else none

mutual

/-- The entries `update_registry` inserts while walking one type, in
insertion order: mirrors `updateRegistry` case by case. -/
def insertedEntries (ty : AnalysedType) : List (RegistryKey × RegistryValue) :=
  match ty with
  | .variant cases =>
    cases.map (fun nameTypePair =>
      (.functionName nameTypePair.1,
        match nameTypePair.2 with
        | some variantParameterTyp => .variant [variantParameterTyp] cases
        | none => .value (.variant cases)))
  | .enum typeEnum =>
    typeEnum.map (fun n => (.functionName n, .value (.enum typeEnum)))
  | .tuple items => insertedList items
  | .list inner => insertedEntries inner
  | .record fields => insertedFields fields
  | .result (some okType) (some errType) =>
    insertedEntries okType ++ insertedEntries errType
  | .result none (some errType) => insertedEntries errType
  | .result (some okType) none => insertedEntries okType
  | .option typeOption => insertedEntries typeOption
  | _ => []

/-- The entries inserted by walking a list of types in order. -/
def insertedList : List AnalysedType → List (RegistryKey × RegistryValue)
  | [] => []
  | t :: rest => insertedEntries t ++ insertedList rest

/-- The entries inserted by walking a record's field types in order. -/
def insertedFields : List (String × AnalysedType) → List (RegistryKey × RegistryValue)
  | [] => []
  | (_, t) :: rest => insertedEntries t ++ insertedFields rest

end

/-- All keys the expansion pass of `from_export_metadata` inserts: the plain
keys of every variant/enum case it discovers. -/
def expansionKeys (exports : List AnalysedExport) : List RegistryKey :=
  (insertedList (typesSeq exports)).map Prod.fst

/-- Lookup after a cons inspects the head first. -/
theorem lookupKey_cons (e : RegistryKey × RegistryValue) (m : RegMap) (k : RegistryKey) :
    lookupKey (e :: m) k = if e.1 = k then some e.2 else lookupKey m k := by
  by_cases h : e.1 = k <;> simp [lookupKey, List.find?, h]

/-- Removing the entries for one key does not change lookups at other keys. -/
theorem lookupKey_filter_ne (m : RegMap) (k k' : RegistryKey) (h : k' ≠ k) :
    lookupKey (m.filter (fun e => ! decide (e.1 = k))) k' = lookupKey m k' := by
  induction m with
  | nil => rfl
  | cons e rest ih =>
    rw [List.filter_cons]
    by_cases he : e.1 = k
    · have hne : e.1 ≠ k' := fun hh => h (hh ▸ he)
      have h2 : ¬ (k = k') := fun hh => h hh.symm
      simp [he, lookupKey_cons, hne, ih, h2]
    · simp [he, lookupKey_cons, ih]

/-- `insert` followed by `get`: the new value at the inserted key, the old
value elsewhere. -/
theorem lookupKey_insertEntry (m : RegMap) (k : RegistryKey) (v : RegistryValue)
    (k' : RegistryKey) :
    lookupKey (insertEntry m k v) k' = if k' = k then some v else lookupKey m k' := by
  by_cases h : k' = k
  · subst h; simp [insertEntry, lookupKey_cons]
  · have hne : k ≠ k' := fun hh => h hh.symm
    simp [insertEntry, lookupKey_cons, h, hne, lookupKey_filter_ne m k k' h]

/-- Folding a sequence of insertions: the last insertion at the key wins,
falling back to the initial map. -/
theorem lookupKey_foldl_insertPair (l : List (RegistryKey × RegistryValue)) (m : RegMap)
    (k : RegistryKey) :
    lookupKey (l.foldl insertPair m) k =
      match lastWins l k with
      | some v => some v
      | none => lookupKey m k := by
  induction l generalizing m with
  | nil => simp [lastWins]
  | cons e rest ih =>
    rw [List.foldl_cons, ih]
    cases hlw : lastWins rest k with
    | some v => simp [lastWins, hlw]
    | none =>
      simp only [lastWins, hlw]
      rw [show insertPair m e = insertEntry m e.1 e.2 from rfl, lookupKey_insertEntry]
      by_cases h : e.1 = k
      · simp [h]
      · have hne : ¬ k = e.1 := fun hh => h hh.symm
        simp [h, hne]

/-- A key never inserted is not found among the insertions. -/
theorem lastWins_eq_none (l : List (RegistryKey × RegistryValue)) (k : RegistryKey)
    (h : k ∉ l.map Prod.fst) : lastWins l k = none := by
  induction l with
  | nil => rfl
  | cons e rest ih =>
    simp only [List.map_cons, List.mem_cons] at h
    push_neg at h
    have hne : e.1 ≠ k := fun hh => h.1 hh.symm
    simp [lastWins, ih h.2, hne]

/-- An inserted key is found among the insertions. -/
theorem lastWins_isSome (l : List (RegistryKey × RegistryValue)) (k : RegistryKey)
    (h : k ∈ l.map Prod.fst) : (lastWins l k).isSome = true := by
  induction l with
  | nil => simp at h
  | cons e rest ih =>
    simp only [lastWins]
    cases hlw : lastWins rest k with
    | some v => simp
    | none =>
      rcases (by simpa using h : k = e.1 ∨ k ∈ rest.map Prod.fst) with h1 | h2
      · simp [h1.symm]
      · have := ih h2
        rw [hlw] at this
        simp at this

/-- A key is found among the insertions exactly when it was inserted. -/
theorem lastWins_isSome_iff (l : List (RegistryKey × RegistryValue)) (k : RegistryKey) :
    (lastWins l k).isSome = true ↔ k ∈ l.map Prod.fst := by
  constructor
  · intro h
    by_contra hmem
    rw [lastWins_eq_none l k hmem] at h
    simp at h
  · exact lastWins_isSome l k

/-- The winning value of a sequence of insertions is one of the inserted
entries. -/
theorem lastWins_mem (l : List (RegistryKey × RegistryValue)) (k : RegistryKey)
    (v : RegistryValue) (h : lastWins l k = some v) : (k, v) ∈ l := by
  induction l with
  | nil => simp [lastWins] at h
  | cons e rest ih =>
    rw [lastWins] at h
    cases hlw : lastWins rest k with
    | some w =>
      rw [hlw] at h
      exact List.mem_cons_of_mem e (ih (hlw.trans h))
    | none =>
      rw [hlw] at h
      by_cases he : e.1 = k
      · rw [if_pos he] at h
        have hv : e.2 = v := Option.some.inj h
        have hkv : (k, v) = e := by rw [← he, ← hv]
        rw [hkv]
        exact List.mem_cons_self e rest
      · rw [if_neg he] at h
        exact absurd h (by simp)

/-- Insertions at other keys are invisible: the winner at `k` only depends on
the insertions at `k`. -/
theorem lastWins_filter_key (l : List (RegistryKey × RegistryValue)) (k : RegistryKey) :
    lastWins l k = lastWins (l.filter (fun e => decide (e.1 = k))) k := by
  induction l with
  | nil => rfl
  | cons e rest ih =>
    rw [List.filter_cons]
    by_cases he : e.1 = k
    · rw [if_pos (decide_eq_true he)]
      simp only [lastWins, ← ih]
    · rw [if_neg (by simpa using he), ← ih, lastWins]
      cases lastWins rest k <;> simp [he]

mutual

/-- The walk of one type is exactly the fold of its insertion sequence. -/
theorem updateRegistry_eq : ∀ (ty : AnalysedType) (m : RegMap),
    updateRegistry ty m = (insertedEntries ty).foldl insertPair m
  | .variant cases, m => by
    simp only [updateRegistry, insertedEntries, List.foldl_map]
    rfl
  | .enum typeEnum, m => by
    simp only [updateRegistry, insertedEntries, List.foldl_map]
    rfl
  | .tuple items, m => by
    simp only [updateRegistry, insertedEntries]
    exact updateAll_eq items m
  | .list inner, m => by
    simp only [updateRegistry, insertedEntries]
    exact updateRegistry_eq inner m
  | .record fields, m => by
    simp only [updateRegistry, insertedEntries]
    exact updateFields_eq fields m
  | .result (some okType) (some errType), m => by
    simp only [updateRegistry, insertedEntries, List.foldl_append]
    rw [updateRegistry_eq okType m, updateRegistry_eq errType]
  | .result none (some errType), m => by
    simp only [updateRegistry, insertedEntries]
    exact updateRegistry_eq errType m
  | .result (some okType) none, m => by
    simp only [updateRegistry, insertedEntries]
    exact updateRegistry_eq okType m
  | .option typeOption, m => by
    simp only [updateRegistry, insertedEntries]
    exact updateRegistry_eq typeOption m
  | .result none none, m => rfl
  | .flags _, m => rfl
  | .str, m => rfl
  | .chr, m => rfl
  | .f64, m => rfl
  | .f32, m => rfl
  | .u64, m => rfl
  | .s64, m => rfl
  | .u32, m => rfl
  | .s32, m => rfl
  | .u16, m => rfl
  | .s16, m => rfl
  | .u8, m => rfl
  | .s8, m => rfl
  | .bool, m => rfl
  | .handle, m => rfl

/-- The walk of a list of types is the fold of its insertion sequence. -/
theorem updateAll_eq : ∀ (tys : List AnalysedType) (m : RegMap),
    updateAll tys m = (insertedList tys).foldl insertPair m
  | [], m => rfl
  | t :: rest, m => by
    simp only [updateAll, insertedList, List.foldl_append]
    rw [updateRegistry_eq t m, updateAll_eq rest]

/-- The walk of a record's fields is the fold of its insertion sequence. -/
theorem updateFields_eq : ∀ (fields : List (String × AnalysedType)) (m : RegMap),
    updateFields fields m = (insertedFields fields).foldl insertPair m
  | [], m => rfl
  | (_, t) :: rest, m => by
    simp only [updateFields, insertedFields, List.foldl_append]
    rw [updateRegistry_eq t m, updateFields_eq rest]

end

mutual

/-- Every key the expansion walk inserts is a plain function name. -/
theorem insertedEntries_key_plain : ∀ (ty : AnalysedType) (e : RegistryKey × RegistryValue),
    e ∈ insertedEntries ty → ∃ n, e.1 = RegistryKey.functionName n
  | .variant cases, e, he => by
    simp only [insertedEntries] at he
    rcases List.mem_map.mp he with ⟨pr, _, rfl⟩
    exact ⟨pr.1, rfl⟩
  | .enum typeEnum, e, he => by
    simp only [insertedEntries] at he
    rcases List.mem_map.mp he with ⟨n, _, rfl⟩
    exact ⟨n, rfl⟩
  | .tuple items, e, he =>
    insertedList_key_plain items e (by simpa only [insertedEntries] using he)
  | .list inner, e, he =>
    insertedEntries_key_plain inner e (by simpa only [insertedEntries] using he)
  | .record fields, e, he =>
    insertedFields_key_plain fields e (by simpa only [insertedEntries] using he)
  | .result (some okType) (some errType), e, he => by
    rcases List.mem_append.mp (by simpa only [insertedEntries] using he) with h | h
    · exact insertedEntries_key_plain okType e h
    · exact insertedEntries_key_plain errType e h
  | .result none (some errType), e, he =>
    insertedEntries_key_plain errType e (by simpa only [insertedEntries] using he)
  | .result (some okType) none, e, he =>
    insertedEntries_key_plain okType e (by simpa only [insertedEntries] using he)
  | .option typeOption, e, he =>
    insertedEntries_key_plain typeOption e (by simpa only [insertedEntries] using he)
  | .result none none, e, he => by simp [insertedEntries] at he
  | .flags _, e, he => by simp [insertedEntries] at he
  | .str, e, he => by simp [insertedEntries] at he
  | .chr, e, he => by simp [insertedEntries] at he
  | .f64, e, he => by simp [insertedEntries] at he
  | .f32, e, he => by simp [insertedEntries] at he
  | .u64, e, he => by simp [insertedEntries] at he
  | .s64, e, he => by simp [insertedEntries] at he
  | .u32, e, he => by simp [insertedEntries] at he
  | .s32, e, he => by simp [insertedEntries] at he
  | .u16, e, he => by simp [insertedEntries] at he
  | .s16, e, he => by simp [insertedEntries] at he
  | .u8, e, he => by simp [insertedEntries] at he
  | .s8, e, he => by simp [insertedEntries] at he
  | .bool, e, he => by simp [insertedEntries] at he
  | .handle, e, he => by simp [insertedEntries] at he

/-- Every key inserted while walking a list of types is a plain name. -/
theorem insertedList_key_plain : ∀ (tys : List AnalysedType) (e : RegistryKey × RegistryValue),
    e ∈ insertedList tys → ∃ n, e.1 = RegistryKey.functionName n
  | [], e, he => by simp [insertedList] at he
  | t :: rest, e, he => by
    rcases List.mem_append.mp (by simpa only [insertedList] using he) with h | h
    · exact insertedEntries_key_plain t e h
    · exact insertedList_key_plain rest e h

/-- Every key inserted while walking record fields is a plain name. -/
theorem insertedFields_key_plain :
    ∀ (fields : List (String × AnalysedType)) (e : RegistryKey × RegistryValue),
    e ∈ insertedFields fields → ∃ n, e.1 = RegistryKey.functionName n
  | [], e, he => by simp [insertedFields] at he
  | (_, t) :: rest, e, he => by
    rcases List.mem_append.mp (by simpa only [insertedFields] using he) with h | h
    · exact insertedEntries_key_plain t e h
    · exact insertedFields_key_plain rest e h

end

/-- The insertions of a member type are among the insertions of the list. -/
theorem insertedEntries_subset_insertedList {t : AnalysedType} :
    ∀ {tys : List AnalysedType}, t ∈ tys →
    ∀ e ∈ insertedEntries t, e ∈ insertedList tys := by
  intro tys
  induction tys with
  | nil => intro h; simp at h
  | cons u rest ih =>
    intro h e he
    rcases List.mem_cons.mp h with h1 | h2
    · exact List.mem_append.mpr (Or.inl (h1 ▸ he))
    · exact List.mem_append.mpr (Or.inr (ih h2 e he))

/-- The insertions of a field's type are among the insertions of the record's
fields. -/
theorem insertedEntries_subset_insertedFields {name : String} {t : AnalysedType} :
    ∀ {fields : List (String × AnalysedType)}, (name, t) ∈ fields →
    ∀ e ∈ insertedEntries t, e ∈ insertedFields fields := by
  intro fields
  induction fields with
  | nil => intro h; simp at h
  | cons f rest ih =>
    intro h e he
    rcases List.mem_cons.mp h with h1 | h2
    · obtain ⟨fn, ft⟩ := f
      obtain ⟨h1n, h1t⟩ := Prod.mk.injEq .. ▸ h1
      exact List.mem_append.mpr (Or.inl (h1t ▸ he))
    · obtain ⟨fn, ft⟩ := f
      exact List.mem_append.mpr (Or.inr (ih h2 e he))

/-- Lookup in the built registry: the last expansion insertion at the key
wins, else the last flat-pass insertion, else nothing. -/
theorem lookup_fromExportMetadataWith (exports : List AnalysedExport)
    (order : List AnalysedType) (k : RegistryKey) :
    lookupKey (fromExportMetadataWith exports order).types k =
      match lastWins (insertedList order) k with
      | some v => some v
      | none =>
        match lastWins (flatEntries exports) k with
        | some v => some v
        | none => none := by
  show lookupKey (updateAll order (flatPass exports)) k = _
  rw [updateAll_eq, lookupKey_foldl_insertPair,
    show flatPass exports = (flatEntries exports).foldl insertPair [] from rfl,
    lookupKey_foldl_insertPair]
  cases lastWins (insertedList order) k <;> cases lastWins (flatEntries exports) k <;> rfl

/-- A key is present in the built registry exactly when the expansion or the
flat pass inserted it. -/
theorem isSome_lookup_fromExportMetadataWith (exports : List AnalysedExport)
    (order : List AnalysedType) (k : RegistryKey) :
    (lookupKey (fromExportMetadataWith exports order).types k).isSome = true ↔
      k ∈ (insertedList order).map Prod.fst ∨ k ∈ (flatEntries exports).map Prod.fst := by
  rw [lookup_fromExportMetadataWith, ← lastWins_isSome_iff, ← lastWins_isSome_iff]
  cases lastWins (insertedList order) k <;> cases lastWins (flatEntries exports) k <;> simp

/-- A key inserted while walking one of the expanded types is present among
the expansion insertions. -/
theorem mem_insertedList_keys {k : RegistryKey} {t : AnalysedType}
    {tys : List AnalysedType} (ht : t ∈ tys) (hk : k ∈ (insertedEntries t).map Prod.fst) :
    k ∈ (insertedList tys).map Prod.fst := by
  rcases List.mem_map.mp hk with ⟨e, he, rfl⟩
  exact List.mem_map.mpr ⟨e, insertedEntries_subset_insertedList ht e he, rfl⟩

/-- A key inserted while walking a field's type is present among the
insertions of the record's fields. -/
theorem mem_insertedFields_keys {k : RegistryKey} {name : String} {t : AnalysedType}
    {fields : List (String × AnalysedType)} (hf : (name, t) ∈ fields)
    (hk : k ∈ (insertedEntries t).map Prod.fst) :
    k ∈ (insertedFields fields).map Prod.fst := by
  rcases List.mem_map.mp hk with ⟨e, he, rfl⟩
  exact List.mem_map.mpr ⟨e, insertedEntries_subset_insertedFields hf e he, rfl⟩

/-- Inserting keeps the keys of the map without repetition. -/
theorem nodupKeys_insertEntry (m : RegMap) (k : RegistryKey) (v : RegistryValue)
    (h : (m.map Prod.fst).Nodup) : ((insertEntry m k v).map Prod.fst).Nodup := by
  simp only [insertEntry, List.map_cons, List.nodup_cons]
  refine ⟨?_, ?_⟩
  · intro hk
    rcases List.mem_map.mp hk with ⟨e, he, hke⟩
    have hfe := (List.mem_filter.mp he).2
    rw [hke] at hfe
    simp at hfe
  · exact List.Nodup.sublist ((List.filter_sublist m).map Prod.fst) h

/-- A fold of insertions keeps the keys of the map without repetition. -/
theorem nodupKeys_foldl_insertPair (l : List (RegistryKey × RegistryValue)) (m : RegMap)
    (h : (m.map Prod.fst).Nodup) : ((l.foldl insertPair m).map Prod.fst).Nodup := by
  induction l generalizing m with
  | nil => exact h
  | cons e rest ih => exact ih _ (nodupKeys_insertEntry m e.1 e.2 h)

/-- The built registry holds at most one entry per key. -/
theorem nodupKeys_fromExportMetadataWith (exports : List AnalysedExport)
    (order : List AnalysedType) :
    (((fromExportMetadataWith exports order).types).map Prod.fst).Nodup := by
  show ((updateAll order (flatPass exports)).map Prod.fst).Nodup
  rw [updateAll_eq]
  exact nodupKeys_foldl_insertPair _ _
    (nodupKeys_foldl_insertPair _ [] (by simp))

/-- Every entry of a fold of insertions is an inserted entry or an entry of
the initial map. -/
theorem mem_foldl_insertPair (l : List (RegistryKey × RegistryValue)) (m : RegMap)
    (e : RegistryKey × RegistryValue) (h : e ∈ l.foldl insertPair m) :
    e ∈ l ∨ e ∈ m := by
  induction l generalizing m with
  | nil => exact Or.inr h
  | cons a rest ih =>
    rcases ih (insertPair m a) h with h1 | h2
    · exact Or.inl (List.mem_cons_of_mem a h1)
    · rcases List.mem_cons.mp h2 with h3 | h4
      · exact Or.inl (h3 ▸ List.mem_cons_self a rest)
      · exact Or.inr (List.mem_of_mem_filter h4)

/-- Keys inserted when walking a reached type are inserted when walking the
reaching type. -/
theorem reaches_key {t u : AnalysedType} (h : Reaches t u) {k : RegistryKey}
    (hk : k ∈ (insertedEntries u).map Prod.fst) :
    k ∈ (insertedEntries t).map Prod.fst := by
  induction h with
  | refl t => exact hk
  | tuple hmem h ih =>
    simpa only [insertedEntries] using mem_insertedList_keys hmem (ih hk)
  | list h ih => simpa only [insertedEntries] using ih hk
  | record hmem h ih =>
    simpa only [insertedEntries] using mem_insertedFields_keys hmem (ih hk)
  | option h ih => simpa only [insertedEntries] using ih hk
  | resultOk h ih =>
    rename_i okType u err
    cases err with
    | none => simpa only [insertedEntries] using ih hk
    | some errType =>
      simp only [insertedEntries, List.map_append]
      exact List.mem_append.mpr (Or.inl (ih hk))
  | resultErr h ih =>
    rename_i errType u ok
    cases ok with
    | none => simpa only [insertedEntries] using ih hk
    | some okType =>
      simp only [insertedEntries, List.map_append]
      exact List.mem_append.mpr (Or.inr (ih hk))

/-- Each case of a variant type gets its plain key inserted when the variant
itself is walked. -/
theorem variant_case_key_mem {cases : TypeVariant} {pr : String × Option AnalysedType}
    (hpr : pr ∈ cases) :
    RegistryKey.functionName pr.1 ∈ (insertedEntries (.variant cases)).map Prod.fst := by
  simp only [insertedEntries, List.map_map]
  exact List.mem_map.mpr ⟨pr, hpr, rfl⟩

/-- Each case of an enum type gets its plain key inserted when the enum
itself is walked. -/
theorem enum_case_key_mem {cs : List String} {n : String} (hn : n ∈ cs) :
    RegistryKey.functionName n ∈ (insertedEntries (.enum cs)).map Prod.fst := by
  simp only [insertedEntries, List.map_map]
  exact List.mem_map.mpr ⟨n, hn, rfl⟩

/-- A successful lookup exhibits an entry of the map. -/
theorem mem_of_lookupKey (m : RegMap) (k : RegistryKey) (v : RegistryValue)
    (h : lookupKey m k = some v) : (k, v) ∈ m := by
  induction m with
  | nil => simp [lookupKey] at h
  | cons e rest ih =>
    rw [lookupKey_cons] at h
    by_cases he : e.1 = k
    · rw [if_pos he] at h
      have hv := Option.some.inj h
      have hkv : (k, v) = e := by rw [← he, ← hv]
      rw [hkv]
      exact List.mem_cons_self e rest
    · rw [if_neg he] at h
      exact List.mem_cons_of_mem e (ih h)

/-- On a list with distinct keys, the winner at an entry's key is that
entry's value. -/
theorem lastWins_nodup (l : List (RegistryKey × RegistryValue))
    (h : (l.map Prod.fst).Nodup) (e : RegistryKey × RegistryValue) (he : e ∈ l) :
    lastWins l e.1 = some e.2 := by
  induction l with
  | nil => simp at he
  | cons a rest ih =>
    simp only [List.map_cons, List.nodup_cons] at h
    rcases List.mem_cons.mp he with rfl | h2
    · rw [lastWins, lastWins_eq_none rest e.1 h.1]
      simp
    · rw [lastWins, ih h.2 h2]

/-- Every value the flat pass inserts is a `Function` signature. -/
theorem flatEntries_value_function (exports : List AnalysedExport) :
    ∀ e ∈ flatEntries exports, ∃ ps rs, e.2 = RegistryValue.function ps rs := by
  intro e he
  rcases List.mem_flatMap.mp he with ⟨x, hx, hex⟩
  cases x with
  | inst iname fns =>
    rcases List.mem_map.mp (by simpa only [exportEntries] using hex) with ⟨fn, _, rfl⟩
    exact ⟨_, _, rfl⟩
  | function fn =>
    simp only [exportEntries, List.mem_singleton] at hex
    subst hex
    exact ⟨_, _, rfl⟩

/-- Every entry of the built registry was inserted by the expansion pass or
by the flat pass. -/
theorem mem_types_split (exports : List AnalysedExport)
    (e : RegistryKey × RegistryValue) (he : e ∈ (fromExportMetadata exports).types) :
    e ∈ insertedList (typesSeq exports) ∨ e ∈ flatEntries exports := by
  have h1 : e ∈ updateAll (typesSeq exports) (flatPass exports) := he
  rw [updateAll_eq] at h1
  rcases mem_foldl_insertPair _ _ _ h1 with h2 | h3
  · exact Or.inl h2
  · rcases mem_foldl_insertPair _ _ _ h3 with h4 | h5
    · exact Or.inr h4
    · simp at h5

/-- C1: constructor discovery is transitive.  For every variant or enum type
reached from any parameter or return type of any exported function by
descending through tuples, lists, records, options, and the present sides of
results, the registry built by `from_export_metadata` contains an entry under
the plain key `FunctionName(case_name)` for every case. -/
theorem constructor_discovery_transitive (exports : List AnalysedExport)
    (t0 : AnalysedType) (h0 : t0 ∈ typesSeq exports) :
    (∀ cases : TypeVariant, Reaches t0 (.variant cases) →
      ∀ pr ∈ cases,
        ((fromExportMetadata exports).lookup (.functionName pr.1)).isSome = true)
    ∧ (∀ cs : List String, Reaches t0 (.enum cs) →
      ∀ n ∈ cs,
        ((fromExportMetadata exports).lookup (.functionName n)).isSome = true) := by
  constructor
  · intro cases hr pr hpr
    show (lookupKey (fromExportMetadataWith exports (typesSeq exports)).types _).isSome = true
    rw [isSome_lookup_fromExportMetadataWith]
    exact Or.inl (mem_insertedList_keys h0 (reaches_key hr (variant_case_key_mem hpr)))
  · intro cs hr n hn
    show (lookupKey (fromExportMetadataWith exports (typesSeq exports)).types _).isSome = true
    rw [isSome_lookup_fromExportMetadataWith]
    exact Or.inl (mem_insertedList_keys h0 (reaches_key hr (enum_case_key_mem hn)))

/-- Witness for C1 at the spec's §8 example: `circle` sits in a variant
nested inside a record parameter of `make_shape` and is discovered. -/
theorem constructor_discovery_transitive_witness :
    ((fromExportMetadata exampleExports).lookup (.functionName "circle")).isSome = true :=
  (constructor_discovery_transitive exampleExports
      (.record [("shape", .variant shapeVariant)])
      (by simp [typesSeq, typesOfFunction, exampleExports, addFunction,
      makeShapeFunction])).1
    shapeVariant
    (@Reaches.record [("shape", .variant shapeVariant)] "shape"
      (.variant shapeVariant) (.variant shapeVariant) (by simp)
      (Reaches.refl _))
    ("circle", some .f64)
    (by simp [shapeVariant])

/-- C3: payload-arity fidelity.  On a variant whose case names are distinct,
a case with a payload is registered as a `Variant` entry whose
`argument_types()` is exactly the one-element payload sequence and whose
stored variant type is the whole owning descriptor; a case without a payload
is registered as a `Value` entry holding the whole variant type, with empty
`argument_types()`; `argument_types()` of a `Function` entry is its ordered
parameter-type sequence. -/
theorem payload_arity_fidelity (cases : TypeVariant) (m : RegMap)
    (hnd : (cases.map Prod.fst).Nodup) :
    (∀ pr ∈ cases, ∀ p : AnalysedType, pr.2 = some p →
        lookupKey (updateRegistry (.variant cases) m) (.functionName pr.1)
            = some (.variant [p] cases)
          ∧ (RegistryValue.variant [p] cases).argumentTypes = [p])
    ∧ (∀ pr ∈ cases, pr.2 = none →
        lookupKey (updateRegistry (.variant cases) m) (.functionName pr.1)
            = some (.value (.variant cases))
          ∧ (RegistryValue.value (.variant cases)).argumentTypes = [])
    ∧ (∀ ps rs : List AnalysedType,
        (RegistryValue.function ps rs).argumentTypes = ps) := by
  have hkeys : ((insertedEntries (.variant cases)).map Prod.fst).Nodup := by
    simp only [insertedEntries, List.map_map]
    show (cases.map fun pr => RegistryKey.functionName pr.1).Nodup
    rw [show (fun pr : String × Option AnalysedType => RegistryKey.functionName pr.1)
        = RegistryKey.functionName ∘ Prod.fst from rfl, ← List.map_map]
    exact hnd.map (fun a b hab => by injection hab)
  refine ⟨?_, ?_, fun ps rs => rfl⟩
  · intro pr hpr p hp
    refine ⟨?_, rfl⟩
    have hmem : ((RegistryKey.functionName pr.1 : RegistryKey),
        (RegistryValue.variant [p] cases : RegistryValue))
        ∈ insertedEntries (.variant cases) := by
      simp only [insertedEntries]
      refine List.mem_map.mpr ⟨pr, hpr, ?_⟩
      rw [hp]
    rw [updateRegistry_eq, lookupKey_foldl_insertPair,
      lastWins_nodup _ hkeys _ hmem]
  · intro pr hpr hp
    refine ⟨?_, rfl⟩
    have hmem : ((RegistryKey.functionName pr.1 : RegistryKey),
        (RegistryValue.value (.variant cases) : RegistryValue))
        ∈ insertedEntries (.variant cases) := by
      simp only [insertedEntries]
      refine List.mem_map.mpr ⟨pr, hpr, ?_⟩
      rw [hp]
    rw [updateRegistry_eq, lookupKey_foldl_insertPair,
      lastWins_nodup _ hkeys _ hmem]

/-- Witness for C3 at the spec's §8 example variant. -/
theorem payload_arity_fidelity_witness :
    lookupKey (updateRegistry (.variant shapeVariant) []) (.functionName "circle")
        = some (.variant [.f64] shapeVariant)
      ∧ (RegistryValue.variant [.f64] shapeVariant).argumentTypes = [.f64] :=
  (payload_arity_fidelity shapeVariant [] (by decide)).1
    ("circle", some .f64) (by simp [shapeVariant]) .f64 rfl

/-- C5: `get` agrees with `lookup` on the key computed by
`RegistryKey::from_call_type`, for every registry and call reference. -/
theorem get_agrees_with_lookup (r : FunctionTypeRegistry) (ct : CallType) :
    r.get ct = r.lookup (RegistryKey.fromCallType ct) := by
  cases ct with
  | function parsedFnName =>
    cases hsite : parsedFnName.interfaceName <;>
      simp [FunctionTypeRegistry.get, FunctionTypeRegistry.lookup,
        RegistryKey.fromCallType, RegistryKey.fromFunctionName, hsite]
  | variantConstructor name => rfl
  | enumConstructor name => rfl

/-- C6: expanding a variant inserts entries only for that variant's own case
names — lookups at every other key are unchanged, so nothing is registered
for types nested inside the cases' payloads. -/
theorem variant_no_payload_descent (cases : TypeVariant) (m : RegMap)
    (k : RegistryKey) (h : ∀ pr ∈ cases, k ≠ RegistryKey.functionName pr.1) :
    lookupKey (updateRegistry (.variant cases) m) k = lookupKey m k := by
  rw [updateRegistry_eq, lookupKey_foldl_insertPair]
  have hnk : k ∉ (insertedEntries (.variant cases)).map Prod.fst := by
    intro hk
    simp only [insertedEntries, List.map_map] at hk
    rcases List.mem_map.mp hk with ⟨pr, hpr, hkey⟩
    exact h pr hpr hkey.symm
  rw [lastWins_eq_none _ _ hnk]

/-- Witness for C6: a variant case's payload contains an enum whose case
`hidden` gets no entry from expanding the variant. -/
theorem variant_no_payload_descent_witness :
    lookupKey (updateRegistry (.variant [("mk", some (.enum ["hidden"]))]) [])
        (.functionName "hidden")
      = lookupKey [] (.functionName "hidden") :=
  variant_no_payload_descent [("mk", some (.enum ["hidden"]))] []
    (.functionName "hidden") (by decide)

/-- C7: key collisions are resolved by last-write-wins with at most one entry
per key: an insertion wins the lookup at its key, every built registry's keys
are without repetition, and at the spec's §8 collision example exactly one
entry exists for `ok`, holding the later-expanded candidate. -/
theorem last_write_wins :
    (∀ (m : RegMap) (k : RegistryKey) (v : RegistryValue),
        lookupKey (insertEntry m k v) k = some v)
    ∧ (∀ exports : List AnalysedExport,
        (((fromExportMetadata exports).types).map Prod.fst).Nodup)
    ∧ ((fromExportMetadata collidingExports).types.filter
          (fun e => decide (e.1 = RegistryKey.functionName "ok"))).length = 1
    ∧ lookupKey (fromExportMetadata collidingExports).types (.functionName "ok")
        = some (.variant [.str] okVariantB)
    ∧ (lookupKey (fromExportMetadata collidingExports).types (.functionName "ok")
          = some (.variant [.u32] okVariantA)
        ∨ lookupKey (fromExportMetadata collidingExports).types (.functionName "ok")
          = some (.variant [.str] okVariantB)) := by
  refine ⟨?_, ?_, ?_, ?_, ?_⟩
  · intro m k v
    rw [lookupKey_insertEntry, if_pos rfl]
  · intro exports
    exact nodupKeys_fromExportMetadataWith exports _
  · rfl
  · rfl
  · exact Or.inr rfl

/-- C8: round-trip on `get_variants` — a variant descriptor is stored in some
`Variant` entry of the map exactly when it appears in `get_variants()`. -/
theorem get_variants_roundtrip (r : FunctionTypeRegistry) (vt : TypeVariant) :
    (∃ k ps, (k, RegistryValue.variant ps vt) ∈ r.types) ↔ vt ∈ r.getVariants := by
  simp only [FunctionTypeRegistry.getVariants, List.mem_filterMap]
  constructor
  · rintro ⟨k, ps, hmem⟩
    exact ⟨(k, .variant ps vt), hmem, rfl⟩
  · rintro ⟨e, he, hmatch⟩
    obtain ⟨k, v⟩ := e
    cases v with
    | variant ps vt2 =>
      simp only [Option.some.injEq] at hmatch
      exact ⟨k, ps, hmatch ▸ he⟩
    | value t => simp at hmatch
    | function ps rs => simp at hmatch

/-- C9: construction is total — the recursive walk is a total function (it is
accepted as a terminating definition over the closed set of shapes), and it
never produces an invalid key: any key present after a walk was already
present or is a plain `FunctionName`, and any key of a built registry is a
declared function's key or a plain `FunctionName`. -/
theorem construction_total :
    (∀ (ty : AnalysedType) (m : RegMap) (k : RegistryKey),
        (lookupKey (updateRegistry ty m) k).isSome = true →
        (lookupKey m k).isSome = true ∨ ∃ n, k = RegistryKey.functionName n)
    ∧ (∀ (exports : List AnalysedExport) (k : RegistryKey),
        (lookupKey (fromExportMetadata exports).types k).isSome = true →
        k ∈ (flatEntries exports).map Prod.fst
          ∨ ∃ n, k = RegistryKey.functionName n) := by
  constructor
  · intro ty m k h
    rw [updateRegistry_eq, lookupKey_foldl_insertPair] at h
    cases hlw : lastWins (insertedEntries ty) k with
    | none =>
      rw [hlw] at h
      exact Or.inl h
    | some v =>
      right
      rcases insertedEntries_key_plain ty (k, v) (lastWins_mem _ _ _ hlw) with ⟨n, hn⟩
      exact ⟨n, hn⟩
  · intro exports k h
    rcases (isSome_lookup_fromExportMetadataWith exports (typesSeq exports) k).mp h
      with h1 | h2
    · right
      rcases List.mem_map.mp h1 with ⟨e, he, rfl⟩
      rcases insertedList_key_plain _ e he with ⟨n, hn⟩
      exact ⟨n, hn⟩
    · exact Or.inl h2

/-- Witness for C9: walking an enum over the empty map produces only a plain
key. -/
theorem construction_total_witness :
    (lookupKey [] (.functionName "a")).isSome = true
      ∨ ∃ n, RegistryKey.functionName "a" = RegistryKey.functionName n :=
  construction_total.1 (.enum ["a"]) [] (.functionName "a") (by rfl)

/-- C10: shape invariant relating keys and values — every entry under an
interface-qualified key holds a `Function` signature, and every `Variant` or
`Value` entry is keyed by a plain `FunctionName`. -/
theorem key_shape_invariant (exports : List AnalysedExport) :
    (∀ (i f : String) (v : RegistryValue),
        (RegistryKey.functionNameWithInterface i f, v) ∈ (fromExportMetadata exports).types →
        ∃ ps rs, v = RegistryValue.function ps rs)
    ∧ (∀ (k : RegistryKey) (ps : List AnalysedType) (vt : TypeVariant),
        (k, RegistryValue.variant ps vt) ∈ (fromExportMetadata exports).types →
        ∃ n, k = RegistryKey.functionName n)
    ∧ (∀ (k : RegistryKey) (t : AnalysedType),
        (k, RegistryValue.value t) ∈ (fromExportMetadata exports).types →
        ∃ n, k = RegistryKey.functionName n) := by
  refine ⟨?_, ?_, ?_⟩
  · intro i f v hmem
    rcases mem_types_split exports _ hmem with h1 | h2
    · rcases insertedList_key_plain _ _ h1 with ⟨n, hn⟩
      exact absurd hn (by simp)
    · rcases flatEntries_value_function exports _ h2 with ⟨ps, rs, hv⟩
      exact ⟨ps, rs, hv⟩
  · intro k ps vt hmem
    rcases mem_types_split exports _ hmem with h1 | h2
    · exact insertedList_key_plain _ _ h1
    · rcases flatEntries_value_function exports _ h2 with ⟨ps2, rs2, hv⟩
      exact absurd hv (by simp)
  · intro k t hmem
    rcases mem_types_split exports _ hmem with h1 | h2
    · exact insertedList_key_plain _ _ h1
    · rcases flatEntries_value_function exports _ h2 with ⟨ps2, rs2, hv⟩
      exact absurd hv (by simp)

/-- Witness for C10 at the spec's §8 example: the qualified `calculator.add`
entry holds a `Function` signature. -/
theorem key_shape_invariant_witness :
    ∃ ps rs, (RegistryValue.function [.s32, .s32] [.s32] : RegistryValue)
      = RegistryValue.function ps rs :=
  (key_shape_invariant exampleExports).1 "calculator" "add"
    (.function [.s32, .s32] [.s32])
    (mem_of_lookupKey _ _ _ (by rfl))

/-- A key is inserted while walking a list of types when some type of the
list inserts it. -/
theorem insertedList_keys_iff (tys : List AnalysedType) (k : RegistryKey) :
    k ∈ (insertedList tys).map Prod.fst
      ↔ ∃ t ∈ tys, k ∈ (insertedEntries t).map Prod.fst := by
  induction tys with
  | nil => simp [insertedList]
  | cons t rest ih =>
    simp only [insertedList, List.map_append, List.mem_append, ih, List.mem_cons]
    constructor
    · rintro (h | ⟨u, hu, hk⟩)
      · exact ⟨t, Or.inl rfl, h⟩
      · exact ⟨u, Or.inr hu, hk⟩
    · rintro ⟨u, (rfl | hu), hk⟩
      · exact Or.inl hk
      · exact Or.inr ⟨u, hu, hk⟩

/-- Lookup at a key the expansion never inserts falls through to the flat
pass. -/
theorem lookup_expansion_ne (exports : List AnalysedExport)
    (order : List AnalysedType) (k : RegistryKey)
    (h : k ∉ (insertedList order).map Prod.fst) :
    lookupKey (fromExportMetadataWith exports order).types k
      = lookupKey (flatPass exports) k := by
  show lookupKey (updateAll order (flatPass exports)) k = _
  rw [updateAll_eq, lookupKey_foldl_insertPair, lastWins_eq_none _ _ h]

/-- Flat-pass lookup is the last flat insertion at the key. -/
theorem lookup_flatPass (exports : List AnalysedExport) (k : RegistryKey) :
    lookupKey (flatPass exports) k =
      match lastWins (flatEntries exports) k with
      | some v => some v
      | none => none := by
  rw [show flatPass exports = (flatEntries exports).foldl insertPair [] from rfl,
    lookupKey_foldl_insertPair]
  cases lastWins (flatEntries exports) k <;> rfl

/-- Interface-qualified keys are never inserted by the expansion pass. -/
theorem qualified_not_in_expansion (order : List AnalysedType) (i f : String) :
    RegistryKey.functionNameWithInterface i f ∉ (insertedList order).map Prod.fst := by
  intro h
  rcases List.mem_map.mp h with ⟨e, he, hk⟩
  rcases insertedList_key_plain order e he with ⟨n, hn⟩
  exact RegistryKey.noConfusion (hn.symm.trans hk)

/-- C2 counterexample: the claim asserts any two runs of
`from_export_metadata` end with the same winning value for each key, even
under case-name collisions between distinct expanded types.  Here two
legitimate runs — both expanding exactly the accumulated type set of
`collidingExports`, in the two possible orders — disagree at the key `ok`. -/
theorem determinism_counterexample :
    (∀ t, t ∈ ([.variant okVariantB, .variant okVariantA] : List AnalysedType)
        ↔ t ∈ typesSeq collidingExports)
    ∧ lookupKey (fromExportMetadataWith collidingExports
          (typesSeq collidingExports)).types (.functionName "ok")
        = some (.variant [.str] okVariantB)
    ∧ lookupKey (fromExportMetadataWith collidingExports
          [.variant okVariantB, .variant okVariantA]).types (.functionName "ok")
        = some (.variant [.u32] okVariantA)
    ∧ ¬ (some (RegistryValue.variant [.str] okVariantB)
        = some (RegistryValue.variant [.u32] okVariantA)) := by
  refine ⟨?_, rfl, rfl, ?_⟩
  · intro t
    constructor <;> intro h <;>
      simp only [typesSeq, typesOfFunction, collidingExports, List.flatMap_cons,
        List.flatMap_nil, List.map_cons, List.map_nil, List.append_nil,
        List.nil_append, List.cons_append, List.mem_cons, List.not_mem_nil,
        or_false] at h ⊢ <;> tauto
  · intro h
    injection h with h2
    injection h2 with hps hvt
    injection hps with hh _
    exact AnalysedType.noConfusion hh

/-- C2 (amended): two runs agree on which keys are present — for any two
expansion orders enumerating the same accumulated type set, the two built
registries have the same key set.  (The counterexample shows the values at
colliding keys can differ between runs, so full entry-set equality fails.) -/
theorem determinism_amended (exports : List AnalysedExport)
    (order1 order2 : List AnalysedType)
    (h1 : ∀ t, t ∈ order1 ↔ t ∈ typesSeq exports)
    (h2 : ∀ t, t ∈ order2 ↔ t ∈ typesSeq exports) (k : RegistryKey) :
    (lookupKey (fromExportMetadataWith exports order1).types k).isSome = true
      ↔ (lookupKey (fromExportMetadataWith exports order2).types k).isSome = true := by
  rw [isSome_lookup_fromExportMetadataWith, isSome_lookup_fromExportMetadataWith,
    insertedList_keys_iff, insertedList_keys_iff]
  constructor
  · rintro (⟨t, ht, hk⟩ | h)
    · exact Or.inl ⟨t, (h2 t).mpr ((h1 t).mp ht), hk⟩
    · exact Or.inr h
  · rintro (⟨t, ht, hk⟩ | h)
    · exact Or.inl ⟨t, (h1 t).mpr ((h2 t).mp ht), hk⟩
    · exact Or.inr h

/-- Witness for the amended C2 at the collision example: the key `ok` is
present in both runs. -/
theorem determinism_amended_witness :
    (lookupKey (fromExportMetadataWith collidingExports
        [.variant okVariantA, .variant okVariantB]).types
        (.functionName "ok")).isSome = true
      ↔ (lookupKey (fromExportMetadataWith collidingExports
        [.variant okVariantB, .variant okVariantA]).types
        (.functionName "ok")).isSome = true :=
  determinism_amended collidingExports
    [.variant okVariantA, .variant okVariantB]
    [.variant okVariantB, .variant okVariantA]
    (fun t => Iff.rfl)
    (fun t => by
      constructor <;> intro h <;>
        simp only [typesSeq, typesOfFunction, collidingExports, List.flatMap_cons,
          List.flatMap_nil, List.map_cons, List.map_nil, List.append_nil,
          List.nil_append, List.cons_append, List.mem_cons, List.not_mem_nil,
          or_false] at h ⊢ <;> tauto)
    (.functionName "ok")

/-- C4 counterexample: the claim asserts that for an interface function with
no unqualified function of the same name, `lookup(PlainName(f))` fails.  In
`trickyExports` the interface function `f` is the only function (the flat
pass inserts no plain key `f`), yet the plain lookup succeeds, because a
variant case named `f` reachable from its parameter populates that key. -/
theorem qualification_counterexample :
    ((fromExportMetadata trickyExports).lookup
        (.functionNameWithInterface "api" "f")).isSome = true
    ∧ (flatEntries trickyExports).filter
        (fun e => decide (e.1 = RegistryKey.functionName "f")) = []
    ∧ (fromExportMetadata trickyExports).lookup (.functionName "f")
        = some (.value (.variant [("f", none)]))
    ∧ ¬ (fromExportMetadata trickyExports).lookup (.functionName "f") = none := by
  refine ⟨rfl, rfl, rfl, ?_⟩
  intro h
  rw [show (fromExportMetadata trickyExports).lookup (.functionName "f")
      = some (.value (.variant [("f", none)])) from rfl] at h
  exact Option.noConfusion h

/-- C4 (amended): qualification correctness with the collision provisos the
code imposes.  For a function declared in an interface: if `(i, f)` is
declared exactly once, the qualified lookup returns its signature; and the
plain lookup fails only provided additionally that no reachable variant/enum
case is named `f`.  For a top-level function: the plain lookup returns its
signature provided `f` is declared once at top level and no reachable case is
named `f`; and the qualified lookup under `(i, f)` fails provided no
interface declares `(i, f)`. -/
theorem qualification_amended (exports : List AnalysedExport) (i f : String)
    (fn : AnalysedFunction) :
    ((flatEntries exports).filter
          (fun e => decide (e.1 = RegistryKey.functionNameWithInterface i f))
        = [(RegistryKey.functionNameWithInterface i f, functionSignature fn)] →
      (fromExportMetadata exports).lookup (.functionNameWithInterface i f)
        = some (functionSignature fn))
    ∧ ((flatEntries exports).filter
          (fun e => decide (e.1 = RegistryKey.functionName f)) = [] →
      RegistryKey.functionName f ∉ expansionKeys exports →
      (fromExportMetadata exports).lookup (.functionName f) = none)
    ∧ ((flatEntries exports).filter
          (fun e => decide (e.1 = RegistryKey.functionName f))
        = [(RegistryKey.functionName f, functionSignature fn)] →
      RegistryKey.functionName f ∉ expansionKeys exports →
      (fromExportMetadata exports).lookup (.functionName f)
        = some (functionSignature fn))
    ∧ ((flatEntries exports).filter
          (fun e => decide (e.1 = RegistryKey.functionNameWithInterface i f)) = [] →
      (fromExportMetadata exports).lookup (.functionNameWithInterface i f) = none) := by
  refine ⟨?_, ?_, ?_, ?_⟩
  · intro hfilter
    show lookupKey (fromExportMetadataWith exports (typesSeq exports)).types _ = _
    rw [lookup_expansion_ne exports _ _ (qualified_not_in_expansion _ i f),
      lookup_flatPass, lastWins_filter_key, hfilter]
    simp [lastWins]
  · intro hfilter hexp
    show lookupKey (fromExportMetadataWith exports (typesSeq exports)).types _ = _
    rw [lookup_expansion_ne exports _ _ hexp, lookup_flatPass,
      lastWins_filter_key, hfilter]
    rfl
  · intro hfilter hexp
    show lookupKey (fromExportMetadataWith exports (typesSeq exports)).types _ = _
    rw [lookup_expansion_ne exports _ _ hexp, lookup_flatPass,
      lastWins_filter_key, hfilter]
    simp [lastWins]
  · intro hfilter
    show lookupKey (fromExportMetadataWith exports (typesSeq exports)).types _ = _
    rw [lookup_expansion_ne exports _ _ (qualified_not_in_expansion _ i f),
      lookup_flatPass, lastWins_filter_key, hfilter]
    rfl

/-- Witness for the amended C4 at the spec's §8 example: `calculator.add`
resolves only qualified, `make_shape` resolves only plain. -/
theorem qualification_amended_witness :
    (fromExportMetadata exampleExports).lookup
        (.functionNameWithInterface "calculator" "add")
        = some (functionSignature addFunction)
    ∧ (fromExportMetadata exampleExports).lookup (.functionName "add") = none
    ∧ (fromExportMetadata exampleExports).lookup (.functionName "make_shape")
        = some (functionSignature makeShapeFunction)
    ∧ (fromExportMetadata exampleExports).lookup
        (.functionNameWithInterface "calculator" "make_shape") = none :=
  ⟨(qualification_amended exampleExports "calculator" "add" addFunction).1 (by rfl),
   (qualification_amended exampleExports "calculator" "add" addFunction).2.1
     (by rfl) (by decide),
   (qualification_amended exampleExports "calculator" "make_shape"
       makeShapeFunction).2.2.1 (by rfl) (by decide),
   (qualification_amended exampleExports "calculator" "make_shape"
       makeShapeFunction).2.2.2 (by rfl)⟩

end TypeRegistry
